import Mathlib

/-!
Verification of the Codebase Selection Engine of the code2prompt repository.

The development shallowly embeds the Rust sources:
* `crates/code2prompt-core/src/session.rs` (`Code2PromptSession`: explicit
  override bookkeeping, `is_file_included`, `toggle_file`, …)
* `crates/code2prompt/src/model/file_tree.rs` (`FileTreeState` / `FileNode`:
  lazy child loading, recursive selection propagation, search visibility)

Rust `String` / `&str` values are embedded as `List Char` (named `Str`), so
that substring containment and splitting are ordinary list operations.
Rust `HashSet<PathBuf>` becomes `Finset Str`.  The glob compiler
(`build_globset` in `filter.rs`, not part of the embedded sources) is kept
abstract as a function field, and the inclusion resolver
(`should_include_path`) is modelled from the specification.
-/

/-! ### Strings -/

/-- Rust `String` / `&str`, embedded as a list of characters. -/
abbrev Str := List Char

/-- Model of Rust `str::contains` (substring containment): some suffix of `s`
starts with `pat`. -/
def str_contains (s pat : Str) : Bool :=
  pat.isPrefixOf s ||
    match s with
    | [] => false
    | _ :: tail => str_contains tail pat

/-- Leftmost match of `sep` inside `s`: returns the part before the first
occurrence and the part after it.  Helper for `split_on`. -/
def find_first_match (sep : Str) : Str → Option (Str × Str)
  | [] => none
  | c :: cs =>
    if sep.isPrefixOf (c :: cs) then some ([], (c :: cs).drop sep.length)
    else
      match find_first_match sep cs with
      | some (a, rest) => some (c :: a, rest)
      | none => none

/-- Model of Rust `str::split` on a non-empty separator string: splits at
each leftmost non-overlapping occurrence.  (The code only ever splits on the
literal separators `"**"` and `"*"`; the empty-separator case is never
exercised and is given the dummy value `[s]`.) -/
def split_on (sep s : Str) : List Str :=
  if hsep : sep = [] then [s]
  else
    match h : find_first_match sep s with
    | none => [s]
    | some (a, rest) => a :: split_on sep rest
termination_by s.length
decreasing_by
  have key : ∀ s' a' rest' : Str, find_first_match sep s' = some (a', rest') →
      rest'.length < s'.length := by
    intro s'
    induction s' with
    | nil => intro a' rest' hk; simp [find_first_match] at hk
    | cons c cs ih =>
      intro a' rest' hk
      rw [find_first_match] at hk
      by_cases hpre : sep.isPrefixOf (c :: cs) = true
      · rw [if_pos hpre] at hk
        obtain ⟨-, rfl⟩ : a' = [] ∧ (c :: cs).drop sep.length = rest' := by
          simpa using hk
        have hlen : 1 ≤ sep.length := by
          cases sep with
          | nil => exact absurd rfl hsep
          | cons x xs => simp
        simp only [List.length_drop]
        simp only [List.length_cons]
        omega
      · rw [if_neg hpre] at hk
        cases hf : find_first_match sep cs with
        | none => rw [hf] at hk; simp at hk
        | some pr =>
          obtain ⟨a2, r2⟩ := pr
          rw [hf] at hk
          obtain ⟨-, rfl⟩ : c :: a2 = a' ∧ r2 = rest' := by simpa using hk
          have := ih a2 r2 hf
          simp only [List.length_cons]
          omega
  exact key s a rest h

/-- Model of Rust `str::to_lowercase` (faithful on ASCII). -/
def to_lowercase (s : Str) : Str := s.map Char.toLower

/-- Model of Rust `str::trim_end_matches` with a single-character pattern:
removes all trailing occurrences of `c`. -/
def trim_end_matches (s : Str) (c : Char) : Str :=
  (s.reverse.dropWhile (· = c)).reverse

/-- Model of Rust `str::trim_start_matches` with a single-character pattern:
removes all leading occurrences of `c`. -/
def trim_start_matches (s : Str) (c : Char) : Str :=
  s.dropWhile (· = c)

/-! ### Selection session (`code2prompt-core/src/session.rs`)

Only the parts of `Code2PromptSession` that the inclusion decision and the
override operations touch are embedded: the `config` fields
`path`, `include_patterns`, `exclude_patterns`, `explicit_includes`,
`explicit_excludes`, plus the abstract glob compiler.  The remaining session
data (`selected_files`, rendered output, git info) is never read or written
by `is_file_included` / `include_file` / `exclude_file` / `toggle_file` /
`clear_explicit_overrides` and is omitted. -/

/-- A compiled glob set (`globset::GlobSet` built by `build_globset`), kept
abstract: a match predicate together with the emptiness of the underlying
pattern list, which is all the inclusion resolver consumes. -/
structure CompiledMatcher where
  is_match : Str → Bool
  is_empty : Bool

/-- The configuration fields of `Code2PromptConfig` used by the selection
engine. -/
structure Code2PromptConfig where
  path : Str
  include_patterns : List Str
  exclude_patterns : List Str
  explicit_includes : Finset Str
  explicit_excludes : Finset Str

/-- The selection session.  `build_globset` (from `filter.rs`, outside the
embedded sources) is carried as an abstract compiler from pattern lists to
matchers; the claims hold for every such compiler. -/
structure Code2PromptSession where
  build_globset : List Str → CompiledMatcher
  config : Code2PromptConfig

/-- Model of `path.strip_prefix(&self.config.path).unwrap_or(path)`: drop
the root prefix when present, otherwise return the path unchanged. -/
def relativize_path (root p : Str) : Str :=
  if root.isEmpty then p
  else if p = root then []
  else if (root ++ ['/']).isPrefixOf p then p.drop (root ++ ['/']).length
  else p

/-- Modelled from the spec: the inclusion resolver `should_include_path`
lives in `crates/code2prompt-core/src/filter.rs`, which is not among the
embedded sources (only its caller `session.rs` is).  §4.2 of the
specification gives its precedence, highest first:
1. `relative_path ∈ explicit_excludes` → excluded;
2. `relative_path ∈ explicit_includes` → included;
3. the exclude matcher matches and the include matcher does not (or the
   include list is empty) → excluded;
4. the include matcher matches, or the include list is empty → included;
5. otherwise → excluded. -/
def should_include_path (rel_path : Str) (include_gs exclude_gs : CompiledMatcher)
    (explicit_includes explicit_excludes : Finset Str) : Bool :=
  if rel_path ∈ explicit_excludes then false
  else if rel_path ∈ explicit_includes then true
  else if exclude_gs.is_match rel_path &&
      (!include_gs.is_match rel_path || include_gs.is_empty) then false
  else if include_gs.is_match rel_path || include_gs.is_empty then true
  else false

/-- Rust `Code2PromptSession::is_file_included`: relativize the path, rebuild both
glob sets from the current pattern lists, and apply the resolver. -/
def Code2PromptSession.is_file_included (s : Code2PromptSession) (path : Str) : Bool :=
  let rel_path := relativize_path s.config.path path
  let include_gs := s.build_globset s.config.include_patterns
  let exclude_gs := s.build_globset s.config.exclude_patterns
  should_include_path rel_path include_gs exclude_gs
    s.config.explicit_includes s.config.explicit_excludes

/-- Rust `Code2PromptSession::include_file`: remove the relative path from
`explicit_excludes`, insert it into `explicit_includes`. -/
def Code2PromptSession.include_file (s : Code2PromptSession) (path : Str) :
    Code2PromptSession :=
  let rel_path := relativize_path s.config.path path
  { s with config := { s.config with
      explicit_excludes := s.config.explicit_excludes.erase rel_path
      explicit_includes := insert rel_path s.config.explicit_includes } }

/-- Rust `Code2PromptSession::exclude_file`: remove the relative path from
`explicit_includes`, insert it into `explicit_excludes`. -/
def Code2PromptSession.exclude_file (s : Code2PromptSession) (path : Str) :
    Code2PromptSession :=
  let rel_path := relativize_path s.config.path path
  { s with config := { s.config with
      explicit_includes := s.config.explicit_includes.erase rel_path
      explicit_excludes := insert rel_path s.config.explicit_excludes } }

/-- Rust `Code2PromptSession::toggle_file`: query the current decision and flip it
via an explicit override. -/
def Code2PromptSession.toggle_file (s : Code2PromptSession) (path : Str) :
    Code2PromptSession :=
  if s.is_file_included path then s.exclude_file path
  else s.include_file path

/-- Rust `Code2PromptSession::clear_explicit_overrides`: empty both explicit
sets. -/
def Code2PromptSession.clear_explicit_overrides (s : Code2PromptSession) :
    Code2PromptSession :=
  { s with config := { s.config with
      explicit_includes := ∅
      explicit_excludes := ∅ } }

/-- The override operations a user can issue on a session (used to state the
"after any finite sequence of calls" invariant). -/
inductive SessionOp where
  | include_file (path : Str)
  | exclude_file (path : Str)
  | toggle_file (path : Str)
  | clear_explicit_overrides

/-- Run one override operation. -/
def applySessionOp (s : Code2PromptSession) : SessionOp → Code2PromptSession
  | .include_file p => s.include_file p
  | .exclude_file p => s.exclude_file p
  | .toggle_file p => s.toggle_file p
  | .clear_explicit_overrides => s.clear_explicit_overrides

/-- Run a finite sequence of override operations, first one first. -/
def applySessionOps (s : Code2PromptSession) (ops : List SessionOp) :
    Code2PromptSession :=
  ops.foldl applySessionOp s

/-! ### File tree model (`code2prompt/src/model/file_tree.rs`) -/

/-- Rust `FileNode`: one entry of the navigable tree.  Constructor argument order
follows the Rust struct field order: `path`, `name`, `is_directory`,
`is_expanded`, `is_selected`, `children`, `level`, `children_loaded`.
(`PathBuf` values are compared through `to_string_lossy()` in the source,
so paths are embedded directly as strings.) -/
inductive FileNode : Type where
  | mk : (path : Str) → (name : Str) → (is_directory : Bool) →
      (is_expanded : Bool) → (is_selected : Bool) →
      (children : List FileNode) → (level : Nat) → (children_loaded : Bool) →
      FileNode

def FileNode.path : FileNode → Str
  | .mk p _ _ _ _ _ _ _ => p

def FileNode.name : FileNode → Str
  | .mk _ n _ _ _ _ _ _ => n

def FileNode.is_directory : FileNode → Bool
  | .mk _ _ d _ _ _ _ _ => d

def FileNode.is_expanded : FileNode → Bool
  | .mk _ _ _ e _ _ _ _ => e

def FileNode.is_selected : FileNode → Bool
  | .mk _ _ _ _ s _ _ _ => s

def FileNode.children : FileNode → List FileNode
  | .mk _ _ _ _ _ c _ _ => c

def FileNode.level : FileNode → Nat
  | .mk _ _ _ _ _ _ l _ => l

def FileNode.children_loaded : FileNode → Bool
  | .mk _ _ _ _ _ _ _ cl => cl

/-- Rust `FileTreeState`: the file tree data of the TUI model.  `u16` scroll is a
bounded machine integer only used for display; it is embedded as `Nat`. -/
structure FileTreeState where
  file_tree : List FileNode
  search_query : Str
  tree_cursor : Nat
  file_tree_scroll : Nat

/-- Model of `std::io::Error` as produced by `std::fs::read_dir` /
`std::fs::DirEntry`: an error kind plus an OS message.  (The standard
library's `io::Error` for these calls records no path; this model mirrors
that.) -/
structure IoError where
  kind : Nat
  msg : Str
  deriving DecidableEq, Repr

/-- The filesystem, abstracted: `read_dir` lists the child paths of a
directory in filesystem order (or fails with an `IoError`, which also
covers a failing `DirEntry` during iteration), and `is_dir` models
`Path::is_dir`. -/
structure Fs where
  read_dir : Str → Except IoError (List Str)
  is_dir : Str → Bool

/-- Model of Rust `Path::file_name`: the last real component of the path
(`""` and `"."` components are skipped), `none` for a path ending in `".."`
or with no component at all. -/
def path_file_name (p : Str) : Option Str :=
  match ((split_on ['/'] p).filter
      (fun c => !c.isEmpty && c ≠ ['.'])).getLast? with
  | none => none
  | some c => if c = ['.', '.'] then none else some c

/-- Rust `FileNode::new`: derive the display name from the file name (falling
back to the whole path), query the filesystem for directory-ness, and start
unexpanded, unselected, childless and unloaded. -/
def FileNode.new (fs : Fs) (path : Str) (level : Nat) : FileNode :=
  let name := (path_file_name path).getD path
  .mk path name (fs.is_dir path) false false [] level false

/-- The comparator used when sorting freshly loaded children (directories
first, then by name), expressed as the `le` relation of a stable merge
sort: `le a b` iff the Rust comparator does not return `Greater`. -/
def child_le (a b : FileNode) : Bool :=
  match a.is_directory, b.is_directory with
  | true, false => true
  | false, true => false
  | _, _ => a.name ≤ b.name

/-- Rust `FileTreeState::set_children_selection`: recursively overwrite
`is_selected` on every node of the forest. -/
def set_children_selection (selected : Bool) : List FileNode → List FileNode
  | [] => []
  | .mk p n d e _ cs l cl :: rest =>
      .mk p n d e selected (set_children_selection selected cs) l cl ::
        set_children_selection selected rest

/-- Rust `FileTreeState::toggle_directory_selection_recursive`: at each level,
the first node whose path matches is updated together with all its children,
and the scan of that level stops there (Rust `return`); non-matching nodes
with children are searched recursively and the scan continues. -/
def toggle_directory_selection_recursive (path : Str) (selected : Bool) :
    List FileNode → List FileNode
  | [] => []
  | .mk p n d e s cs l cl :: rest =>
    if p = path then
      .mk p n d e selected (set_children_selection selected cs) l cl :: rest
    else
      .mk p n d e s
          (if cs.isEmpty then cs
           else toggle_directory_selection_recursive path selected cs) l cl ::
        toggle_directory_selection_recursive path selected rest

/-- Rust `FileTreeState::update_single_node_selection`: like the directory
version but without propagation to children. -/
def update_single_node_selection (path : Str) (selected : Bool) :
    List FileNode → List FileNode
  | [] => []
  | .mk p n d e s cs l cl :: rest =>
    if p = path then
      .mk p n d e selected cs l cl :: rest
    else
      .mk p n d e s
          (if cs.isEmpty then cs
           else update_single_node_selection path selected cs) l cl ::
        update_single_node_selection path selected rest

/-- Rust `FileTreeState::set_directory_expanded`: sets `is_expanded` on the first
node whose path matches and which is a directory; otherwise keeps
scanning/recursing exactly like the selection walks. -/
def set_directory_expanded (path : Str) (expanded : Bool) :
    List FileNode → List FileNode
  | [] => []
  | .mk p n d e s cs l cl :: rest =>
    if p = path ∧ d = true then
      .mk p n d expanded s cs l cl :: rest
    else
      .mk p n d e s
          (if cs.isEmpty then cs
           else set_directory_expanded path expanded cs) l cl ::
        set_directory_expanded path expanded rest

/-- Rust `FileTreeState::update_node_selection`: dispatch on `is_directory`. -/
def update_node_selection (st : FileTreeState) (path : Str)
    (selected is_directory : Bool) : FileTreeState :=
  if is_directory then
    { st with file_tree :=
        toggle_directory_selection_recursive path selected st.file_tree }
  else
    { st with file_tree :=
        update_single_node_selection path selected st.file_tree }

/-- Rust `FileTreeState::expand_directory`. -/
def expand_directory (st : FileTreeState) (path : Str) : FileTreeState :=
  { st with file_tree := set_directory_expanded path true st.file_tree }

/-- Rust `FileTreeState::collapse_directory`. -/
def collapse_directory (st : FileTreeState) (path : Str) : FileTreeState :=
  { st with file_tree := set_directory_expanded path false st.file_tree }

/-- Rust `FileTreeState::load_children_for_path`.  The Rust function walks the
forest behind an `&mut` and returns `Result<(), io::Error>`; the embedding
returns the updated forest together with the error, `none` meaning `Ok(())`.
At the first node whose path matches, which is a directory and whose
children are not yet loaded, the directory is listed (an error is returned
as-is, with the forest untouched, because the Rust code mutates the node
only after the whole listing succeeded), every entry becomes a fresh child
node one level deeper, children are sorted directories-first then by name
(stable sort, as Rust `sort_by`), and `children_loaded` is set. -/
def load_children_for_path (fs : Fs) (path : Str) :
    List FileNode → List FileNode × Option IoError
  | [] => ([], none)
  | .mk p n d e s cs l cl :: rest =>
    if p = path ∧ d = true ∧ cl = false then
      match fs.read_dir p with
      | .error err => (.mk p n d e s cs l cl :: rest, some err)
      | .ok entries =>
        let children :=
          (entries.map (fun child_path => FileNode.new fs child_path (l + 1))
            ).mergeSort child_le
        (.mk p n d e s children l true :: rest, none)
    else
      let step :=
        if cs.isEmpty then (cs, none)
        else load_children_for_path fs path cs
      match step with
      | (cs2, some err) => (.mk p n d e s cs2 l cl :: rest, some err)
      | (cs2, none) =>
        let next := load_children_for_path fs path rest
        (.mk p n d e s cs2 l cl :: next.1, next.2)

/-- Rust `FileTreeState::load_directory_children`. -/
def load_directory_children (fs : Fs) (st : FileTreeState) (path : Str) :
    FileTreeState × Option IoError :=
  let res := load_children_for_path fs path st.file_tree
  ({ st with file_tree := res.1 }, res.2)

/-! ### Search matcher (`FileTreeState::glob_match_search` and the dispatch
inside `collect_visible_nodes`) -/

/-- The final `text.to_lowercase().contains(&pattern.to_lowercase())`
fallback of `glob_match_search`. -/
def glob_match_fallback (pattern text : Str) : Bool :=
  str_contains (to_lowercase text) (to_lowercase pattern)

/-- The part of `glob_match_search` after the `"**"` block (reached when the
`"**"` block does not `return`): the single-`*` wildcard block, falling back
to case-insensitive containment. -/
def glob_match_fallthrough (pattern text : Str) : Bool :=
  if str_contains pattern ['*'] && !str_contains pattern ['*', '*'] then
    match split_on ['*'] pattern with
    | [part0, part1] => str_contains text part0 && str_contains text part1
    | _ => glob_match_fallback pattern text
  else glob_match_fallback pattern text

/-- Rust `FileTreeState::glob_match_search`: the `"**"` block (entered when the
pattern contains `"**"`, and deciding the result only when the split has
exactly two parts), then the single-`*` block, then the containment
fallback. -/
def glob_match_search (pattern text : Str) : Bool :=
  if str_contains pattern ['*', '*'] then
    match split_on ['*', '*'] pattern with
    | [part0, part1] =>
      let pre := trim_end_matches part0 '/'
      let suf := trim_start_matches part1 '/'
      if pre.isEmpty && suf.isEmpty then true
      else
        let pre_match := pre.isEmpty || str_contains text pre
        let suf_match := suf.isEmpty || str_contains text suf
        pre_match && suf_match
    | _ => glob_match_fallthrough pattern text
  else glob_match_fallthrough pattern text

/-- The per-node `matches_search` computation inlined in
`FileTreeState::collect_visible_nodes`: empty query matches, a query with a
wildcard goes through `glob_match_search` on the name and on the path, any
other query by lowercase containment in the name or the path. -/
def matches_search (query : Str) (node : FileNode) : Bool :=
  if query.isEmpty then true
  else if str_contains query ['*'] || str_contains query ['*', '*'] then
    glob_match_search query node.name || glob_match_search query node.path
  else
    str_contains (to_lowercase node.name) (to_lowercase query) ||
      str_contains (to_lowercase node.path) (to_lowercase query)

/-- The single-candidate search matcher realized by the code: the dispatch
of `collect_visible_nodes` applied to one candidate text (the code applies
it to the display name and to the full path and takes the disjunction;
`matches_search_eq_code` below proves that decomposition). -/
def search_matches_code (query text : Str) : Bool :=
  if query.isEmpty then true
  else if str_contains query ['*'] || str_contains query ['*', '*'] then
    glob_match_search query text
  else str_contains (to_lowercase text) (to_lowercase query)

/-- Rust `FileTreeState::collect_visible_nodes`: depth-first pre-order; a node is
emitted when it matches the query, and its children are traversed when it is
expanded and (it matched or it is a directory). -/
def collect_visible_nodes (query : Str) : List FileNode → List FileNode
  | [] => []
  | .mk p n d e s cs l cl :: rest =>
    let node : FileNode := .mk p n d e s cs l cl
    let ms := matches_search query node
    (if ms then [node] else []) ++
      (if e && (ms || d) then collect_visible_nodes query cs else []) ++
      collect_visible_nodes query rest

/-- Rust `FileTreeState::get_visible_nodes`.  (The Rust function returns a vector
of references; the embedding returns the nodes themselves.) -/
def get_visible_nodes (st : FileTreeState) : List FileNode :=
  collect_visible_nodes st.search_query st.file_tree

/-! ### Spec-side definitions

These definitions follow the wording of the claims (not the code); the
refinement theorems below compare them with the embedded code. -/

/-- The search matcher as the specification states it, as a fixed case
analysis on the query: empty query matches everything; a query splitting on
`"**"` into exactly two parts requires containment of the trimmed parts
(empty parts vacuously satisfied); a query splitting on `"*"` into exactly
two parts requires containment of both parts; every other query is decided
by case-insensitive containment of the raw query. -/
def search_matches_spec (query text : Str) : Bool :=
  if query.isEmpty then true
  else
    match split_on ['*', '*'] query with
    | [a, b] =>
      let pre := trim_end_matches a '/'
      let suf := trim_start_matches b '/'
      (pre.isEmpty || str_contains text pre) &&
        (suf.isEmpty || str_contains text suf)
    | _ =>
      match split_on ['*'] query with
      | [a, b] => str_contains text a && str_contains text b
      | _ => str_contains (to_lowercase text) (to_lowercase query)

/-- Spec-side node visibility: a node matches when its display name or its
full path satisfies the search matcher. -/
def node_matches_spec (query : Str) (node : FileNode) : Bool :=
  search_matches_spec query node.name || search_matches_spec query node.path

/-- Spec-side visible sequence: depth-first pre-order; a node appears iff it
matches, and a node's children are traversed iff the node is expanded and
(the node matched or it is a directory). -/
def visible_nodes_spec (query : Str) : List FileNode → List FileNode
  | [] => []
  | .mk p n d e s cs l cl :: rest =>
    let node : FileNode := .mk p n d e s cs l cl
    (if node_matches_spec query node then [node] else []) ++
      (if e && (node_matches_spec query node || d) then
        visible_nodes_spec query cs else []) ++
      visible_nodes_spec query rest

/-- Spec-side propagation to every currently loaded descendant. -/
def set_all_selected_spec (selected : Bool) : List FileNode → List FileNode
  | [] => []
  | .mk p n d e _ cs l cl :: rest =>
      .mk p n d e selected (set_all_selected_spec selected cs) l cl ::
        set_all_selected_spec selected rest

/-- Spec-side directory selection update: the node with the given path gets
`is_selected` overwritten together with every currently loaded descendant;
every other node keeps all its fields. -/
def update_selection_spec (path : Str) (selected : Bool) :
    List FileNode → List FileNode
  | [] => []
  | .mk p n d e s cs l cl :: rest =>
    (if p = path then
      .mk p n d e selected (set_all_selected_spec selected cs) l cl
     else .mk p n d e s (update_selection_spec path selected cs) l cl) ::
      update_selection_spec path selected rest

/-- Spec-side single-node selection update: only the exact matching node has
`is_selected` changed. -/
def update_single_spec (path : Str) (selected : Bool) :
    List FileNode → List FileNode
  | [] => []
  | .mk p n d e s cs l cl :: rest =>
    (if p = path then .mk p n d e selected cs l cl
     else .mk p n d e s (update_single_spec path selected cs) l cl) ::
      update_single_spec path selected rest

/-- Number of nodes in the forest carrying the given path (used to state
claims that presuppose a unique target node). -/
def count_path (path : Str) : List FileNode → Nat
  | [] => 0
  | .mk p _ _ _ _ cs _ _ :: rest =>
    (if p = path then 1 else 0) + count_path path cs + count_path path rest

/-- Holds exactly when no node with the given path still has a pending lazy load
(every node carrying the path is either not a directory or already
loaded). -/
def no_pending_load (path : Str) : List FileNode → Bool
  | [] => true
  | .mk p _ d _ _ cs _ cl :: rest =>
    (if p = path then !d || cl else true) &&
      no_pending_load path cs && no_pending_load path rest

/-! ### Concrete objects used by witnesses and the counterexample -/

/-- A glob compiler for concrete witnesses: matches everything, records
emptiness of the pattern list. -/
def witnessGlobCompiler : List Str → CompiledMatcher :=
  fun patterns => ⟨fun _ => true, patterns.isEmpty⟩

/-- Concrete session used by the C1 witness: `explicit_includes` and the
always-matching include matcher notwithstanding, `['a']` is explicitly
excluded. -/
def c1Session : Code2PromptSession :=
  ⟨witnessGlobCompiler, ⟨[], [['*']], [], {['a']}, {['a']}⟩⟩

/-- Concrete session used by the C3 witness: starts with disjoint explicit
sets and runs one operation of each kind. -/
def c3Session : Code2PromptSession :=
  ⟨witnessGlobCompiler, ⟨[], [], [['x']], {['a']}, {['b']}⟩⟩

/-- Concrete tree for the file-tree witnesses: a loaded, expanded directory
`"d"` with two file children, next to a stray file `"x"`. -/
def wTree : List FileNode :=
  [.mk ['d'] ['d'] true true false
      [.mk ['d', '/', 'a'] ['a'] false false false [] 1 false,
        .mk ['d', '/', 'b'] ['b'] false false false [] 1 false] 0 true,
    .mk ['x'] ['x'] false false false [] 0 false]

/-- The single error value of the witness filesystem below. -/
def c8Error : IoError := ⟨13, ['d', 'e', 'n', 'i', 'e', 'd']⟩

/-- A filesystem on which every listing fails with the same error. -/

def c8Fs : Fs := ⟨fun _ => .error c8Error, fun _ => true⟩

/-- An unloaded directory node with path `['a']`, and one with path
`['b']`, used to refute the claim that the load error carries the offending
path. -/
def c8TreeA : List FileNode := [.mk ['a'] ['a'] true false false [] 0 false]

def c8TreeB : List FileNode := [.mk ['b'] ['b'] true false false [] 0 false]

/-! ### Theorems -/

theorem isPrefixOf_exists_append {l s : Str} (h : l.isPrefixOf s = true) :
    ∃ t, s = l ++ t := by
  induction l generalizing s with
  | nil => exact ⟨s, rfl⟩
  | cons a as ih =>
    cases s with
    | nil => simp at h
    | cons b bs =>
      rw [List.isPrefixOf_cons₂, Bool.and_eq_true, beq_iff_eq] at h
      obtain ⟨t, ht⟩ := ih h.2
      exact ⟨t, by rw [h.1, List.cons_append, ← ht]⟩

/-- Specification of `find_first_match`: a successful find decomposes the
string around the separator. -/
theorem find_first_match_append {sep s a rest : Str}
    (h : find_first_match sep s = some (a, rest)) : s = a ++ sep ++ rest := by
  induction s generalizing a with
  | nil => simp [find_first_match] at h
  | cons c cs ih =>
    rw [find_first_match] at h
    split at h
    · next hpre =>
      obtain ⟨t, ht⟩ := isPrefixOf_exists_append hpre
      obtain ⟨rfl, rfl⟩ : a = [] ∧ (c :: cs).drop sep.length = rest := by
        simpa using h
      rw [List.nil_append, ht, List.drop_left]
    · next =>
      cases hf : find_first_match sep cs with
      | none => rw [hf] at h; simp at h
      | some p =>
        obtain ⟨a', rest'⟩ := p
        rw [hf] at h
        obtain ⟨rfl, rfl⟩ : c :: a' = a ∧ rest' = rest := by simpa using h
        have := ih hf
        simp [this]

theorem find_first_match_length {sep s a rest : Str} (hsep : sep ≠ [])
    (h : find_first_match sep s = some (a, rest)) :
    rest.length < s.length := by
  have hs := find_first_match_append h
  have : s.length = a.length + sep.length + rest.length := by
    simp [hs]; omega
  have : 1 ≤ sep.length := List.length_pos.mpr hsep
  omega

theorem config_path_include_file (s : Code2PromptSession) (p : Str) :
    (s.include_file p).config.path = s.config.path := rfl

theorem config_path_exclude_file (s : Code2PromptSession) (p : Str) :
    (s.exclude_file p).config.path = s.config.path := rfl

/-- After `exclude_file p`, the decision for `p` is always "excluded". -/
theorem exclude_file_not_included (s : Code2PromptSession) (p : Str) :
    (s.exclude_file p).is_file_included p = false := by
  simp [Code2PromptSession.is_file_included, Code2PromptSession.exclude_file,
    should_include_path]

/-- After `include_file p`, the decision for `p` is always "included". -/
theorem include_file_included (s : Code2PromptSession) (p : Str) :
    (s.include_file p).is_file_included p = true := by
  simp [Code2PromptSession.is_file_included, Code2PromptSession.include_file,
    should_include_path, Finset.not_mem_erase]

/-- One override operation keeps the explicit sets disjoint. -/
theorem applySessionOp_disjoint (s : Code2PromptSession) (op : SessionOp)
    (h : Disjoint s.config.explicit_includes s.config.explicit_excludes) :
    Disjoint (applySessionOp s op).config.explicit_includes
      (applySessionOp s op).config.explicit_excludes := by
  have hinc : ∀ p, Disjoint (s.include_file p).config.explicit_includes
      (s.include_file p).config.explicit_excludes := by
    intro p
    simp only [Code2PromptSession.include_file]
    rw [Finset.disjoint_insert_left]
    exact ⟨Finset.not_mem_erase _ _, h.mono_right (Finset.erase_subset _ _)⟩
  have hexc : ∀ p, Disjoint (s.exclude_file p).config.explicit_includes
      (s.exclude_file p).config.explicit_excludes := by
    intro p
    simp only [Code2PromptSession.exclude_file]
    rw [Finset.disjoint_insert_right]
    exact ⟨Finset.not_mem_erase _ _, h.mono_left (Finset.erase_subset _ _)⟩
  cases op with
  | include_file p => exact hinc p
  | exclude_file p => exact hexc p
  | toggle_file p =>
    simp only [applySessionOp, Code2PromptSession.toggle_file]
    split
    · exact hexc p
    · exact hinc p
  | clear_explicit_overrides =>
    simp [applySessionOp, Code2PromptSession.clear_explicit_overrides]

theorem applySessionOps_disjoint (ops : List SessionOp) (s : Code2PromptSession)
    (h : Disjoint s.config.explicit_includes s.config.explicit_excludes) :
    Disjoint (applySessionOps s ops).config.explicit_includes
      (applySessionOps s ops).config.explicit_excludes := by
  induction ops generalizing s with
  | nil => exact h
  | cons op rest ih =>
    exact ih (applySessionOp s op) (applySessionOp_disjoint s op h)

/-! ### Claim theorems: session (C1 - C3) -/

/-- C1: for every session and path, if the path taken relative to the
session root is a member of `explicit_excludes`, then `is_file_included`
returns `false`, whatever the pattern lists, the glob compiler and
`explicit_includes` hold. -/
theorem explicit_exclude_forces_exclusion (s : Code2PromptSession) (p : Str)
    (h : relativize_path s.config.path p ∈ s.config.explicit_excludes) :
    s.is_file_included p = false := by
  simp [Code2PromptSession.is_file_included, should_include_path, h]

theorem explicit_exclude_forces_exclusion_witness :
    relativize_path c1Session.config.path ['a'] ∈
        c1Session.config.explicit_excludes ∧
      c1Session.is_file_included ['a'] = false :=
  ⟨by decide, explicit_exclude_forces_exclusion c1Session ['a'] (by decide)⟩

/-- C2: toggling a path twice restores `is_file_included` for that path to
its value before the first toggle, from every session state. -/
theorem toggle_toggle_restores_decision (s : Code2PromptSession) (p : Str) :
    ((s.toggle_file p).toggle_file p).is_file_included p =
      s.is_file_included p := by
  cases h : s.is_file_included p with
  | true =>
    simp [Code2PromptSession.toggle_file, h, exclude_file_not_included,
      include_file_included]
  | false =>
    simp [Code2PromptSession.toggle_file, h, exclude_file_not_included,
      include_file_included]

/-- C3: from a state with disjoint explicit sets, any finite sequence of
`include_file` / `exclude_file` / `toggle_file` / `clear_explicit_overrides`
calls keeps them disjoint; and `include_file p` followed by
`exclude_file p` leaves the relative path of `p` out of `explicit_includes`
and inside `explicit_excludes`. -/
theorem session_ops_keep_explicit_sets_disjoint (s : Code2PromptSession)
    (ops : List SessionOp) (p : Str)
    (h : Disjoint s.config.explicit_includes s.config.explicit_excludes) :
    Disjoint (applySessionOps s ops).config.explicit_includes
        (applySessionOps s ops).config.explicit_excludes ∧
      relativize_path s.config.path p ∉
        ((s.include_file p).exclude_file p).config.explicit_includes ∧
      relativize_path s.config.path p ∈
        ((s.include_file p).exclude_file p).config.explicit_excludes := by
  refine ⟨applySessionOps_disjoint ops s h, ?_, ?_⟩
  · simp [Code2PromptSession.include_file, Code2PromptSession.exclude_file,
      Finset.not_mem_erase]
  · simp [Code2PromptSession.include_file, Code2PromptSession.exclude_file]

theorem session_ops_keep_explicit_sets_disjoint_witness :
    Disjoint c3Session.config.explicit_includes
        c3Session.config.explicit_excludes ∧
      (Disjoint (applySessionOps c3Session
            [.toggle_file ['b'], .include_file ['c'], .exclude_file ['a'],
              .clear_explicit_overrides, .toggle_file ['a']]
          ).config.explicit_includes
          (applySessionOps c3Session
            [.toggle_file ['b'], .include_file ['c'], .exclude_file ['a'],
              .clear_explicit_overrides, .toggle_file ['a']]
          ).config.explicit_excludes ∧
        relativize_path c3Session.config.path ['a'] ∉
          ((c3Session.include_file ['a']).exclude_file ['a']
            ).config.explicit_includes ∧
        relativize_path c3Session.config.path ['a'] ∈
          ((c3Session.include_file ['a']).exclude_file ['a']
            ).config.explicit_excludes) :=
  ⟨by decide,
    session_ops_keep_explicit_sets_disjoint c3Session
      [.toggle_file ['b'], .include_file ['c'], .exclude_file ['a'],
        .clear_explicit_overrides, .toggle_file ['a']] ['a'] (by decide)⟩

/-! ### String lemmas for the search matcher -/

theorem str_contains_eq_false_iff (s sep : Str) (hsep : sep ≠ []) :
    str_contains s sep = false ↔ find_first_match sep s = none := by
  induction s with
  | nil =>
    obtain ⟨c, cs, rfl⟩ : ∃ c cs, sep = c :: cs := by
      cases sep with
      | nil => exact absurd rfl hsep
      | cons c cs => exact ⟨c, cs, rfl⟩
    simp [str_contains, find_first_match]
  | cons c cs ih =>
    rw [str_contains, find_first_match]
    by_cases hpre : sep.isPrefixOf (c :: cs) = true
    · simp [hpre]
    · rw [Bool.not_eq_true] at hpre
      cases hf : find_first_match sep cs with
      | none => simp [hpre, hf, ih]
      | some p => simp [hpre, hf, ih]

theorem split_on_of_not_contains {s sep : Str} (hsep : sep ≠ [])
    (h : str_contains s sep = false) : split_on sep s = [s] := by
  rw [split_on]
  rw [dif_neg hsep]
  rw [(str_contains_eq_false_iff s sep hsep).mp h]

theorem str_contains_of_split_cons₂ {s sep a b : Str} {l : List Str}
    (hsep : sep ≠ []) (h : split_on sep s = a :: b :: l) :
    str_contains s sep = true := by
  by_contra hc
  rw [Bool.not_eq_true] at hc
  rw [split_on_of_not_contains hsep hc] at h
  simp at h

theorem str_contains_of_mem {c : Char} {s : Str} (hmem : c ∈ s) :
    str_contains s [c] = true := by
  induction s with
  | nil => simp at hmem
  | cons x xs ih =>
    rw [str_contains, Bool.or_eq_true]
    rcases List.mem_cons.mp hmem with rfl | hxs
    · left; simp [List.isPrefixOf_cons₂]
    · exact Or.inr (ih hxs)

/-- For a successful single-character find, the separator does not occur in
the prefix part. -/
theorem find_first_match_single_not_mem {c : Char} {s a rest : Str}
    (h : find_first_match [c] s = some (a, rest)) : c ∉ a := by
  induction s generalizing a rest with
  | nil => simp [find_first_match] at h
  | cons x xs ih =>
    rw [find_first_match] at h
    by_cases hpre : [c].isPrefixOf (x :: xs) = true
    · rw [if_pos hpre] at h
      obtain ⟨rfl, -⟩ : a = [] ∧ _ := by simpa using h
      simp
    · rw [Bool.not_eq_true] at hpre
      rw [if_neg (by simp [hpre])] at h
      have hcx : ¬ c = x := by
        intro hcx
        rw [List.isPrefixOf_cons₂] at hpre
        simp [hcx] at hpre
      cases hf : find_first_match [c] xs with
      | none => rw [hf] at h; simp at h
      | some p =>
        obtain ⟨a', rest'⟩ := p
        rw [hf] at h
        obtain ⟨rfl, -⟩ : x :: a' = a ∧ rest' = rest := by simpa using h
        have := ih hf
        simp [List.mem_cons, hcx, this]

theorem split_on_single_length (c : Char) (s : Str) :
    (split_on [c] s).length = s.count c + 1 := by
  rw [split_on]
  rw [dif_neg (by simp)]
  cases h : find_first_match [c] s with
  | none =>
    have hnc : str_contains s [c] = false := by
      rw [str_contains_eq_false_iff s [c] (by simp)]
      exact h
    have : c ∉ s := by
      intro hmem
      rw [str_contains_of_mem hmem] at hnc
      exact Bool.true_eq_false.mp hnc
    simp [List.count_eq_zero_of_not_mem this]
  | some p =>
    obtain ⟨a, rest⟩ := p
    have hdec := find_first_match_append h
    have hnm := find_first_match_single_not_mem h
    have ih := split_on_single_length c rest
    simp only [List.length_cons, ih]
    have : s.count c = rest.count c + 1 := by
      rw [hdec]
      simp [List.count_append, List.count_cons,
        List.count_eq_zero_of_not_mem hnm]
    omega
termination_by s.length
decreasing_by exact find_first_match_length (by simp) h

theorem count_ge_two_of_contains_double {c : Char} {s : Str}
    (h : str_contains s [c, c] = true) : 2 ≤ s.count c := by
  induction s with
  | nil => simp [str_contains] at h
  | cons x xs ih =>
    rw [str_contains, Bool.or_eq_true] at h
    cases h with
    | inl hpre =>
      obtain ⟨t, ht⟩ := isPrefixOf_exists_append hpre
      rw [ht]
      simp [List.count_cons]
    | inr htail =>
      have := ih htail
      rw [List.count_cons]
      omega

theorem split_single_ne_two_of_contains_double {c : Char} {s : Str}
    (h : str_contains s [c, c] = true) : (split_on [c] s).length ≠ 2 := by
  have h2 := count_ge_two_of_contains_double h
  rw [split_on_single_length]
  omega

theorem contains_single_of_contains_double {c : Char} {s : Str}
    (h : str_contains s [c, c] = true) : str_contains s [c] = true := by
  induction s with
  | nil => simp [str_contains] at h
  | cons x xs ih =>
    rw [str_contains, Bool.or_eq_true] at h
    rw [str_contains, Bool.or_eq_true]
    cases h with
    | inl hpre =>
      left
      rw [List.isPrefixOf_cons₂, Bool.and_eq_true, beq_iff_eq] at hpre
      simp [List.isPrefixOf_cons₂, hpre.1]
    | inr htail => exact Or.inr (ih htail)

theorem split_on_ne_nil (sep s : Str) : split_on sep s ≠ [] := by
  rw [split_on]
  by_cases hsep : sep = []
  · simp [hsep]
  · rw [dif_neg hsep]
    cases h : find_first_match sep s with
    | none => simp
    | some p =>
      obtain ⟨a, rest⟩ := p
      simp

theorem contains_false_of_split_single {sep s a : Str} (hsep : sep ≠ [])
    (h : split_on sep s = [a]) : str_contains s sep = false := by
  rw [split_on, dif_neg hsep] at h
  cases hf : find_first_match sep s with
  | none => exact (str_contains_eq_false_iff s sep hsep).mpr hf
  | some p =>
    obtain ⟨x, rest⟩ := p
    rw [hf] at h
    simp only [List.cons.injEq] at h
    exact absurd h.2 (split_on_ne_nil sep rest)

/-- The code matcher agrees with the specified case analysis on every query
and candidate text (general helper; the C4 claim theorem below restates
it). -/
theorem search_matches_code_eq_spec (query text : Str) :
    search_matches_code query text = search_matches_spec query text := by
  rw [search_matches_code, search_matches_spec]
  by_cases hq : query.isEmpty
  · simp [hq]
  · rw [if_neg hq, if_neg hq]
    rcases h2 : split_on ['*', '*'] query with _ | ⟨a, _ | ⟨b, _ | ⟨e2, tl2⟩⟩⟩
    · exact absurd h2 (split_on_ne_nil _ _)
    · -- the query does not contain "**"
      have hC2 : str_contains query ['*', '*'] = false :=
        contains_false_of_split_single (by simp) h2
      rcases h1 : split_on ['*'] query with _ | ⟨c, _ | ⟨d, _ | ⟨e1, tl1⟩⟩⟩
      · exact absurd h1 (split_on_ne_nil _ _)
      · -- no "*" either: plain containment on both sides
        have hC1 : str_contains query ['*'] = false :=
          contains_false_of_split_single (by simp) h1
        simp [hC1, hC2, h2, h1, glob_match_fallback]
      · -- exactly one "*": the single-wildcard branch on both sides
        have hC1 : str_contains query ['*'] = true :=
          str_contains_of_split_cons₂ (by simp) h1
        simp [hC1, hC2, h2, h1, glob_match_search, glob_match_fallthrough]
      · -- several "*" but never adjacent: containment fallback on both sides
        have hC1 : str_contains query ['*'] = true :=
          str_contains_of_split_cons₂ (by simp) h1
        simp [hC1, hC2, h2, h1, glob_match_search, glob_match_fallthrough,
          glob_match_fallback]
    · -- the query splits on "**" into exactly two parts
      have hC2 : str_contains query ['*', '*'] = true :=
        str_contains_of_split_cons₂ (by simp) h2
      have hC1 := contains_single_of_contains_double hC2
      simp only [hC1, hC2, Bool.true_or, if_true, glob_match_search, h2]
      by_cases hp : (trim_end_matches a '/').isEmpty <;>
        by_cases hs : (trim_start_matches b '/').isEmpty <;>
        simp [hp, hs]
    · -- the query contains "**" but splits into three or more parts
      have hC2 : str_contains query ['*', '*'] = true :=
        str_contains_of_split_cons₂ (by simp) h2
      have hC1 := contains_single_of_contains_double hC2
      have h1ne : (split_on ['*'] query).length ≠ 2 :=
        split_single_ne_two_of_contains_double hC2
      rcases h1 : split_on ['*'] query with _ | ⟨c, _ | ⟨d, _ | ⟨e1, tl1⟩⟩⟩
      · exact absurd h1 (split_on_ne_nil _ _)
      · simp [hC1, hC2, h2, h1, glob_match_search, glob_match_fallthrough,
          glob_match_fallback]
      · rw [h1] at h1ne
        simp at h1ne
      · simp [hC1, hC2, h2, h1, glob_match_search, glob_match_fallthrough,
          glob_match_fallback]

/-- The per-node search test inlined in `collect_visible_nodes` is the
single-candidate matcher applied to the display name and to the full
path. -/
theorem matches_search_eq_code (query : Str) (node : FileNode) :
    matches_search query node =
      (search_matches_code query node.name ||
        search_matches_code query node.path) := by
  rw [matches_search, search_matches_code, search_matches_code]
  by_cases hq : query.isEmpty
  · simp [hq]
  · by_cases hc : (str_contains query ['*'] || str_contains query ['*', '*']) = true
    · simp [hq, hc]
    · rw [Bool.not_eq_true] at hc
      simp [hq, hc]

/-! ### Claim theorem: search matcher (C4) -/

/-- C4: for every query and candidate text, the matcher realized by the code
follows exactly the fixed case analysis of the specification: empty query
matches everything; a query splitting on `"**"` into exactly two parts is
decided by containment of trimmed prefix and suffix (empty parts vacuously
satisfied, `"**"` alone matching everything); a query with a single `*`
splitting into exactly two parts is decided by containment of both parts;
every other query (for example `"a*b*c"`) is decided by case-insensitive
substring containment of the raw query text, so `"src/**"` matches exactly
the candidates containing `"src"`. -/
theorem search_matcher_follows_spec (query text : Str) :
    search_matches_code query text = search_matches_spec query text :=
  search_matches_code_eq_spec query text

/-! ### Visible nodes (C5) -/

theorem collect_visible_nodes_eq_spec (query : Str) :
    ∀ ns : List FileNode,
      collect_visible_nodes query ns = visible_nodes_spec query ns
  | [] => by rw [collect_visible_nodes, visible_nodes_spec]
  | .mk p n d e s cs l cl :: rest => by
    have hcs := collect_visible_nodes_eq_spec query cs
    have hrest := collect_visible_nodes_eq_spec query rest
    have hm : matches_search query (.mk p n d e s cs l cl) =
        node_matches_spec query (.mk p n d e s cs l cl) := by
      rw [matches_search_eq_code, node_matches_spec,
        search_matches_code_eq_spec, search_matches_code_eq_spec]
    simp only [collect_visible_nodes, visible_nodes_spec, hm, hcs, hrest]

/-- C5: `get_visible_nodes` is exactly the specified depth-first pre-order
projection: a node appears iff its display name or full path satisfies the
search matcher for the current query, and a node's children are traversed
iff the node is expanded and (the node matched or it is a directory). -/
theorem get_visible_nodes_follows_spec (st : FileTreeState) :
    get_visible_nodes st = visible_nodes_spec st.search_query st.file_tree :=
  collect_visible_nodes_eq_spec st.search_query st.file_tree

/-! ### Selection propagation (C6) and unknown-path no-ops (C10) -/

theorem count_path_cons (path p n : Str) (d e s : Bool) (cs : List FileNode)
    (l : Nat) (cl : Bool) (rest : List FileNode) :
    count_path path (.mk p n d e s cs l cl :: rest) =
      (if p = path then 1 else 0) + count_path path cs +
        count_path path rest := by
  rw [count_path]

theorem toggle_dir_id_of_absent (path : Str) (selected : Bool) :
    ∀ ns : List FileNode, count_path path ns = 0 →
      toggle_directory_selection_recursive path selected ns = ns
  | [], _ => by rw [toggle_directory_selection_recursive]
  | .mk p n d e s cs l cl :: rest, h => by
    rw [count_path_cons] at h
    have hp : ¬ p = path := by
      intro hp
      rw [if_pos hp] at h
      omega
    rw [if_neg hp] at h
    have ih1 := toggle_dir_id_of_absent path selected cs (by omega)
    have ih2 := toggle_dir_id_of_absent path selected rest (by omega)
    rw [toggle_directory_selection_recursive, if_neg hp, ih1, ih2, ite_self]

theorem update_single_id_of_absent (path : Str) (selected : Bool) :
    ∀ ns : List FileNode, count_path path ns = 0 →
      update_single_node_selection path selected ns = ns
  | [], _ => by rw [update_single_node_selection]
  | .mk p n d e s cs l cl :: rest, h => by
    rw [count_path_cons] at h
    have hp : ¬ p = path := by
      intro hp
      rw [if_pos hp] at h
      omega
    rw [if_neg hp] at h
    have ih1 := update_single_id_of_absent path selected cs (by omega)
    have ih2 := update_single_id_of_absent path selected rest (by omega)
    rw [update_single_node_selection, if_neg hp, ih1, ih2, ite_self]

theorem set_expanded_id_of_absent (path : Str) (expanded : Bool) :
    ∀ ns : List FileNode, count_path path ns = 0 →
      set_directory_expanded path expanded ns = ns
  | [], _ => by rw [set_directory_expanded]
  | .mk p n d e s cs l cl :: rest, h => by
    rw [count_path_cons] at h
    have hp : ¬ p = path := by
      intro hp
      rw [if_pos hp] at h
      omega
    rw [if_neg hp] at h
    have ih1 := set_expanded_id_of_absent path expanded cs (by omega)
    have ih2 := set_expanded_id_of_absent path expanded rest (by omega)
    rw [set_directory_expanded, if_neg (by intro hc; exact hp hc.1), ih1, ih2,
      ite_self]

theorem update_selection_spec_id_of_absent (path : Str) (selected : Bool) :
    ∀ ns : List FileNode, count_path path ns = 0 →
      update_selection_spec path selected ns = ns
  | [], _ => by rw [update_selection_spec]
  | .mk p n d e s cs l cl :: rest, h => by
    rw [count_path_cons] at h
    have hp : ¬ p = path := by
      intro hp
      rw [if_pos hp] at h
      omega
    rw [if_neg hp] at h
    have ih1 := update_selection_spec_id_of_absent path selected cs (by omega)
    have ih2 := update_selection_spec_id_of_absent path selected rest (by omega)
    rw [update_selection_spec, if_neg hp, ih1, ih2]

theorem update_single_spec_id_of_absent (path : Str) (selected : Bool) :
    ∀ ns : List FileNode, count_path path ns = 0 →
      update_single_spec path selected ns = ns
  | [], _ => by rw [update_single_spec]
  | .mk p n d e s cs l cl :: rest, h => by
    rw [count_path_cons] at h
    have hp : ¬ p = path := by
      intro hp
      rw [if_pos hp] at h
      omega
    rw [if_neg hp] at h
    have ih1 := update_single_spec_id_of_absent path selected cs (by omega)
    have ih2 := update_single_spec_id_of_absent path selected rest (by omega)
    rw [update_single_spec, if_neg hp, ih1, ih2]

theorem set_children_selection_eq_spec (selected : Bool) :
    ∀ ns : List FileNode,
      set_children_selection selected ns = set_all_selected_spec selected ns
  | [] => by rw [set_children_selection, set_all_selected_spec]
  | .mk p n d e s cs l cl :: rest => by
    have ih1 := set_children_selection_eq_spec selected cs
    have ih2 := set_children_selection_eq_spec selected rest
    rw [set_children_selection, set_all_selected_spec, ih1, ih2]

theorem toggle_dir_eq_spec (path : Str) (selected : Bool) :
    ∀ ns : List FileNode, count_path path ns ≤ 1 →
      toggle_directory_selection_recursive path selected ns =
        update_selection_spec path selected ns
  | [], _ => by
    rw [toggle_directory_selection_recursive, update_selection_spec]
  | .mk p n d e s cs l cl :: rest, h => by
    rw [count_path_cons] at h
    rw [toggle_directory_selection_recursive, update_selection_spec]
    by_cases hp : p = path
    · rw [if_pos hp] at h
      rw [if_pos hp, if_pos hp, set_children_selection_eq_spec,
        update_selection_spec_id_of_absent path selected rest (by omega)]
    · rw [if_neg hp] at h
      rw [if_neg hp, if_neg hp]
      have ihrest := toggle_dir_eq_spec path selected rest (by omega)
      rw [ihrest]
      by_cases hemp : cs.isEmpty
      · have hcs : cs = [] := by
          cases cs with
          | nil => rfl
          | cons x xs => simp at hemp
        subst hcs
        simp [update_selection_spec]
      · have ihcs := toggle_dir_eq_spec path selected cs (by omega)
        rw [if_neg hemp, ihcs]

theorem update_single_eq_spec (path : Str) (selected : Bool) :
    ∀ ns : List FileNode, count_path path ns ≤ 1 →
      update_single_node_selection path selected ns =
        update_single_spec path selected ns
  | [], _ => by
    rw [update_single_node_selection, update_single_spec]
  | .mk p n d e s cs l cl :: rest, h => by
    rw [count_path_cons] at h
    rw [update_single_node_selection, update_single_spec]
    by_cases hp : p = path
    · rw [if_pos hp] at h
      rw [if_pos hp, if_pos hp,
        update_single_spec_id_of_absent path selected rest (by omega)]
    · rw [if_neg hp] at h
      rw [if_neg hp, if_neg hp]
      have ihrest := update_single_eq_spec path selected rest (by omega)
      rw [ihrest]
      by_cases hemp : cs.isEmpty
      · have hcs : cs = [] := by
          cases cs with
          | nil => rfl
          | cons x xs => simp at hemp
        subst hcs
        simp [update_single_spec]
      · have ihcs := update_single_eq_spec path selected cs (by omega)
        rw [if_neg hemp, ihcs]

/-- C6: when the target path occurs at most once in the tree,
`update_node_selection` with `is_directory = true` rewrites `is_selected` on
the target node and every currently loaded descendant and leaves every other
node's fields unchanged (the spec-side update); with `is_directory = false`
it rewrites `is_selected` on the exact matching node only; and a node
freshly created by lazy loading always starts with `is_selected = false`,
whatever selection its ancestors saw earlier. -/
theorem update_node_selection_follows_spec (st : FileTreeState) (path : Str)
    (selected : Bool) (h : count_path path st.file_tree ≤ 1) :
    (update_node_selection st path selected true).file_tree =
        update_selection_spec path selected st.file_tree ∧
      (update_node_selection st path selected false).file_tree =
        update_single_spec path selected st.file_tree ∧
      ∀ (fs : Fs) (p : Str) (level : Nat),
        (FileNode.new fs p level).is_selected = false := by
  refine ⟨?_, ?_, fun fs p level => rfl⟩
  · simp only [update_node_selection, if_pos rfl]
    exact toggle_dir_eq_spec path selected st.file_tree h
  · simp only [update_node_selection, Bool.false_eq_true, if_false]
    exact update_single_eq_spec path selected st.file_tree h

theorem update_node_selection_follows_spec_witness :
    count_path ['d'] wTree ≤ 1 ∧
      ((update_node_selection ⟨wTree, [], 0, 0⟩ ['d'] true true).file_tree =
          update_selection_spec ['d'] true wTree ∧
        (update_node_selection ⟨wTree, [], 0, 0⟩ ['d'] true false).file_tree =
          update_single_spec ['d'] true wTree ∧
        ∀ (fs : Fs) (p : Str) (level : Nat),
          (FileNode.new fs p level).is_selected = false) :=
  ⟨by simp [count_path, wTree],
    update_node_selection_follows_spec ⟨wTree, [], 0, 0⟩ ['d'] true
      (by simp [count_path, wTree])⟩

/-! ### Lazy loading (C7 - C10) -/

theorem load_id_of_absent (fs : Fs) (path : Str) :
    ∀ ns : List FileNode, count_path path ns = 0 →
      load_children_for_path fs path ns = (ns, none)
  | [], _ => by rw [load_children_for_path]
  | .mk p n d e s cs l cl :: rest, h => by
    rw [count_path_cons] at h
    have hp : ¬ p = path := by
      intro hp
      rw [if_pos hp] at h
      omega
    rw [if_neg hp] at h
    have ih1 := load_id_of_absent fs path cs (by omega)
    have ih2 := load_id_of_absent fs path rest (by omega)
    rw [load_children_for_path, if_neg (fun hc => hp hc.1)]
    by_cases hemp : cs.isEmpty
    · simp [hemp, ih2]
    · simp [hemp, ih1, ih2]

theorem load_noop_of_no_pending (fs : Fs) (path : Str) :
    ∀ ns : List FileNode, no_pending_load path ns = true →
      load_children_for_path fs path ns = (ns, none)
  | [], _ => by rw [load_children_for_path]
  | .mk p n d e s cs l cl :: rest, h => by
    rw [no_pending_load] at h
    simp only [Bool.and_eq_true] at h
    obtain ⟨⟨hnode, hcs⟩, hrest⟩ := h
    have ih1 := load_noop_of_no_pending fs path cs hcs
    have ih2 := load_noop_of_no_pending fs path rest hrest
    have hcond : ¬ (p = path ∧ d = true ∧ cl = false) := by
      rintro ⟨hp, hd, hcl⟩
      rw [if_pos hp, hd, hcl] at hnode
      simp at hnode
    rw [load_children_for_path, if_neg hcond]
    by_cases hemp : cs.isEmpty
    · simp [hemp, ih2]
    · simp [hemp, ih1, ih2]

theorem count_pos_of_load_error (fs : Fs) (path : Str) :
    ∀ (ns : List FileNode) (err : IoError),
      (load_children_for_path fs path ns).2 = some err →
        1 ≤ count_path path ns
  | [], err, h => by
    rw [load_children_for_path] at h
    simp at h
  | .mk p n d e s cs l cl :: rest, err, h => by
    rw [load_children_for_path] at h
    rw [count_path_cons]
    by_cases hcond : p = path ∧ d = true ∧ cl = false
    · rw [if_pos hcond.1]
      omega
    · rw [if_neg hcond] at h
      by_cases hemp : cs.isEmpty
      · simp only [hemp, if_true] at h
        have := count_pos_of_load_error fs path rest err (by simpa using h)
        omega
      · simp only [hemp, Bool.false_eq_true, if_false] at h
        rcases hsplit : load_children_for_path fs path cs with ⟨cs2, err2⟩
        rw [hsplit] at h
        cases err2 with
        | some e2 =>
          have h1 : (load_children_for_path fs path cs).2 = some e2 := by
            rw [hsplit]
          have := count_pos_of_load_error fs path cs e2 h1
          omega
        | none =>
          have := count_pos_of_load_error fs path rest err (by simpa using h)
          omega

theorem load_error_tree_unchanged (fs : Fs) (path : Str) :
    ∀ (ns : List FileNode) (err : IoError), count_path path ns ≤ 1 →
      (load_children_for_path fs path ns).2 = some err →
        (load_children_for_path fs path ns).1 = ns
  | [], err, _, h => by
    rw [load_children_for_path] at h
    simp at h
  | .mk p n d e s cs l cl :: rest, err, hc, h => by
    rw [count_path_cons] at hc
    rw [load_children_for_path] at h ⊢
    by_cases hcond : p = path ∧ d = true ∧ cl = false
    · rw [if_pos hcond] at h ⊢
      cases hread : fs.read_dir p with
      | error e2 => simp
      | ok entries =>
        rw [hread] at h
        simp at h
    · rw [if_neg hcond] at h ⊢
      by_cases hemp : cs.isEmpty
      · simp only [hemp, if_true] at h ⊢
        have h2 : (load_children_for_path fs path rest).2 = some err := by
          simpa using h
        have := load_error_tree_unchanged fs path rest err (by omega) h2
        simp [this]
      · simp only [hemp, Bool.false_eq_true, if_false] at h ⊢
        rcases hsplit : load_children_for_path fs path cs with ⟨cs2, err2⟩
        rw [hsplit] at h
        cases err2 with
        | some e2 =>
          have h1 : (load_children_for_path fs path cs).2 = some e2 := by
            rw [hsplit]
          have hcs1 : cs2 = cs := by
            have := load_error_tree_unchanged fs path cs e2 (by omega) h1
            rw [hsplit] at this
            simpa using this
          simp [hcs1]
        | none =>
          have h2 : (load_children_for_path fs path rest).2 = some err := by
            simpa using h
          have hcr := count_pos_of_load_error fs path rest err h2
          have hcs1 : cs2 = cs := by
            have := load_id_of_absent fs path cs (by omega)
            rw [hsplit] at this
            simpa using this
          have hrest1 := load_error_tree_unchanged fs path rest err (by omega) h2
          simp [hcs1, hrest1]

theorem load_error_is_listing_error (fs : Fs) (path : Str) :
    ∀ (ns : List FileNode) (err : IoError),
      (load_children_for_path fs path ns).2 = some err →
        fs.read_dir path = .error err
  | [], err, h => by
    rw [load_children_for_path] at h
    simp at h
  | .mk p n d e s cs l cl :: rest, err, h => by
    rw [load_children_for_path] at h
    by_cases hcond : p = path ∧ d = true ∧ cl = false
    · rw [if_pos hcond] at h
      cases hread : fs.read_dir p with
      | error e2 =>
        rw [hread] at h
        obtain rfl : e2 = err := by simpa using h
        rw [← hcond.1, hread]
      | ok entries =>
        rw [hread] at h
        simp at h
    · rw [if_neg hcond] at h
      by_cases hemp : cs.isEmpty
      · simp only [hemp, if_true] at h
        exact load_error_is_listing_error fs path rest err (by simpa using h)
      · simp only [hemp, Bool.false_eq_true, if_false] at h
        rcases hsplit : load_children_for_path fs path cs with ⟨cs2, err2⟩
        rw [hsplit] at h
        cases err2 with
        | some e2 =>
          obtain rfl : e2 = err := by simpa using h
          exact load_error_is_listing_error fs path cs e2 (by rw [hsplit])
        | none =>
          exact load_error_is_listing_error fs path rest err (by simpa using h)

/-! ### Claim theorems: lazy loading and unknown paths (C7 - C10) -/

/-- C7: when every node carrying the requested path is either not a
directory or already has `children_loaded = true`, `load_directory_children`
returns success and leaves the whole tree state unchanged — and it does so
for **every** filesystem, including one whose every listing fails, which
witnesses that no filesystem read is performed. -/
theorem load_directory_children_noop_when_loaded (fs : Fs)
    (st : FileTreeState) (path : Str)
    (h : no_pending_load path st.file_tree = true) :
    load_directory_children fs st path = (st, none) := by
  obtain ⟨ft, q, c, sc⟩ := st
  simp [load_directory_children, load_noop_of_no_pending fs path ft h]

theorem load_directory_children_noop_when_loaded_witness :
    no_pending_load ['d'] wTree = true ∧
      load_directory_children c8Fs ⟨wTree, [], 0, 0⟩ ['d'] =
        (⟨wTree, [], 0, 0⟩, none) :=
  ⟨by simp [no_pending_load, wTree],
    load_directory_children_noop_when_loaded c8Fs ⟨wTree, [], 0, 0⟩ ['d']
      (by simp [no_pending_load, wTree])⟩

/-- C8, counterexample: two loads failing on two **different** offending
paths (`['a']` and `['b']`) return the *identical* error value `c8Error`
(an error kind and OS message, as `std::io::Error` from `read_dir`
provides): the returned `IOError` is the listing error propagated unchanged
and cannot carry the offending path. -/
theorem load_error_carries_no_path_counterexample :
    (load_directory_children c8Fs ⟨c8TreeA, [], 0, 0⟩ ['a']).2 = some c8Error ∧
      (load_directory_children c8Fs ⟨c8TreeB, [], 0, 0⟩ ['b']).2 = some c8Error ∧
      (['a'] : Str) ≠ ['b'] := by
  refine ⟨?_, ?_, by decide⟩ <;>
    simp [load_directory_children, load_children_for_path, c8Fs, c8TreeA,
      c8TreeB]

/-- C8 (amended): when the directory listing during lazy child loading
cannot be read, `load_directory_children` fails with exactly the `IoError`
produced by listing the requested path, propagated unchanged — the code
attaches nothing (in particular not the offending path) to the error. -/
theorem load_directory_children_error_is_listing_error (fs : Fs)
    (st : FileTreeState) (path : Str) (err : IoError)
    (h : (load_directory_children fs st path).2 = some err) :
    fs.read_dir path = .error err := by
  obtain ⟨ft, q, c, sc⟩ := st
  simp only [load_directory_children] at h
  exact load_error_is_listing_error fs path ft err h

theorem load_directory_children_error_is_listing_error_witness :
    (load_directory_children c8Fs ⟨c8TreeA, [], 0, 0⟩ ['a']).2 =
        some c8Error ∧
      c8Fs.read_dir ['a'] = .error c8Error :=
  ⟨by simp [load_directory_children, load_children_for_path, c8Fs, c8TreeA],
    load_directory_children_error_is_listing_error c8Fs ⟨c8TreeA, [], 0, 0⟩
      ['a'] c8Error
      (by simp [load_directory_children, load_children_for_path, c8Fs,
        c8TreeA])⟩

/-- C9: if `load_directory_children` returns an error (the target path
occurring at most once in the tree, as paths of a real filesystem do), the
whole tree state is unchanged — in particular the target node keeps
`children_loaded = false` and its children sequence, so the load can be
retried. -/
theorem load_directory_children_error_keeps_state (fs : Fs)
    (st : FileTreeState) (path : Str) (err : IoError)
    (h1 : count_path path st.file_tree ≤ 1)
    (h2 : (load_directory_children fs st path).2 = some err) :
    (load_directory_children fs st path).1 = st := by
  obtain ⟨ft, q, c, sc⟩ := st
  simp only [load_directory_children] at h2 ⊢
  have := load_error_tree_unchanged fs path ft err h1 h2
  simp [this]

theorem load_directory_children_error_keeps_state_witness :
    count_path ['a'] c8TreeA ≤ 1 ∧
      (load_directory_children c8Fs ⟨c8TreeA, [], 0, 0⟩ ['a']).2 =
        some c8Error ∧
      (load_directory_children c8Fs ⟨c8TreeA, [], 0, 0⟩ ['a']).1 =
        ⟨c8TreeA, [], 0, 0⟩ :=
  ⟨by simp [count_path, c8TreeA],
    by simp [load_directory_children, load_children_for_path, c8Fs, c8TreeA],
    load_directory_children_error_keeps_state c8Fs ⟨c8TreeA, [], 0, 0⟩ ['a']
      c8Error (by simp [count_path, c8TreeA])
      (by simp [load_directory_children, load_children_for_path, c8Fs,
        c8TreeA])⟩

/-- C10: for a path matched by no node of the tree, `update_node_selection`
(both modes), `expand_directory`, `collapse_directory` and
`load_directory_children` leave the tree state unchanged, and
`load_directory_children` returns success. -/
theorem unknown_path_operations_are_noops (st : FileTreeState) (path : Str)
    (selected : Bool) (fs : Fs) (h : count_path path st.file_tree = 0) :
    update_node_selection st path selected true = st ∧
      update_node_selection st path selected false = st ∧
      expand_directory st path = st ∧
      collapse_directory st path = st ∧
      load_directory_children fs st path = (st, none) := by
  obtain ⟨ft, q, c, sc⟩ := st
  refine ⟨?_, ?_, ?_, ?_, ?_⟩ <;>
    simp [update_node_selection, expand_directory, collapse_directory,
      load_directory_children,
      toggle_dir_id_of_absent path selected ft h,
      update_single_id_of_absent path selected ft h,
      set_expanded_id_of_absent path true ft h,
      set_expanded_id_of_absent path false ft h,
      load_id_of_absent fs path ft h]

theorem unknown_path_operations_are_noops_witness :
    count_path ['z'] wTree = 0 ∧
      (update_node_selection ⟨wTree, [], 0, 0⟩ ['z'] true true =
          ⟨wTree, [], 0, 0⟩ ∧
        update_node_selection ⟨wTree, [], 0, 0⟩ ['z'] true false =
          ⟨wTree, [], 0, 0⟩ ∧
        expand_directory ⟨wTree, [], 0, 0⟩ ['z'] = ⟨wTree, [], 0, 0⟩ ∧
        collapse_directory ⟨wTree, [], 0, 0⟩ ['z'] = ⟨wTree, [], 0, 0⟩ ∧
        load_directory_children c8Fs ⟨wTree, [], 0, 0⟩ ['z'] =
          (⟨wTree, [], 0, 0⟩, none)) :=
  ⟨by simp [count_path, wTree],
    unknown_path_operations_are_noops ⟨wTree, [], 0, 0⟩ ['z'] true c8Fs
      (by simp [count_path, wTree])⟩
